import Mathlib

/-!
Shallow embedding of netket_fidelity/operator/singlequbit_gates.py and
netket_fidelity/operator/__init__.py.

Basis configurations are lists of integers (the two local basis values of the
Hilbert space are arbitrary integers state_0 and state_1, written s0 and s1
below).  Matrix elements are real or complex numbers, matching the dtype each
gate uses in the source.  Array reads sigma[p] are embedded as List.getD with
default 0, array writes as List.set; all functions presume in-range indices,
which the theorems carry as explicit hypotheses where they matter.
-/

/-- Embeds the expression jnp.where(current_state == state_0, state_1, state_0)
that every gate in singlequbit_gates.py uses to flip the value at a target
site. -/
def flipState (s0 s1 current : ℤ) : ℤ :=
  if current = s0 then s1 else s0

/-- Embeds the connection block shared verbatim by get_conns_and_mels_Rx,
get_conns_and_mels_Ry and get_conns_and_mels_Hadamard:
conns = jnp.tile(sigma, (2, 1)); conns = conns.at[1, idx].set(flipped_state). -/
def conns2 (sigma : List ℤ) (idx : ℕ) (s0 s1 : ℤ) : List (List ℤ) :=
  let conns := List.replicate 2 sigma
  let flipped := flipState s0 s1 (sigma.getD idx 0)
  conns.set 1 ((conns.getD 1 []).set idx flipped)

/-- Embeds the mels block of get_conns_and_mels_Rx:
mels[0] = cos(angle/2), mels[1] = -1j * sin(angle/2), complex dtype. -/
noncomputable def rxMels (angle : ℝ) : List ℂ :=
  let mels := List.replicate 2 (0 : ℂ)
  let mels := mels.set 0 (Real.cos (angle / 2))
  mels.set 1 (-Complex.I * Real.sin (angle / 2))

/-- Embeds the mels block of get_conns_and_mels_Ry: the phase factor is read
from conns[0][idx] (the unflipped row of the conns array), then
mels[0] = cos(angle/2), mels[1] = phase * sin(angle/2). -/
noncomputable def ryMels (sigma : List ℤ) (idx : ℕ) (angle : ℝ) (s0 s1 : ℤ) : List ℂ :=
  let conns := conns2 sigma idx s0 s1
  let phase : ℝ := if (conns.getD 0 []).getD idx 0 = s0 then 1 else -1
  let mels := List.replicate 2 (0 : ℂ)
  let mels := mels.set 0 (Real.cos (angle / 2))
  mels.set 1 (phase * Real.sin (angle / 2))

/-- Embeds the mels block of get_conns_and_mels_Hadamard: mels[1] = 1/sqrt(2),
mels[0] = where(conns[0][idx] == state_0, 1, -1) / sqrt(2), real dtype. -/
noncomputable def hadamardMels (sigma : List ℤ) (idx : ℕ) (s0 s1 : ℤ) : List ℝ :=
  let conns := conns2 sigma idx s0 s1
  let mels := List.replicate 2 (0 : ℝ)
  let mels := mels.set 1 (1 / Real.sqrt 2)
  let melsValue := (if (conns.getD 0 []).getD idx 0 = s0 then (1 : ℝ) else -1) / Real.sqrt 2
  mels.set 0 melsValue

/-- Embeds the list comprehension
combination = [idx[j] for j in range(len(idx)) if (i >> j) & 1]
of get_conns_and_mels_Hadamard_multiple. -/
def combinationOf (idx : List ℕ) (i : ℕ) : List ℕ :=
  ((List.range idx.length).filter (fun j => i.testBit j)).map (fun j => idx.getD j 0)

/-- Embeds the inner flip loop of get_conns_and_mels_Hadamard_multiple for one
row i of the conns array: for each index in the combination, set position
index of the row to the flip of sigma[index]. -/
def flipRow (sigma : List ℤ) (s0 s1 : ℤ) (comb : List ℕ) : List ℤ :=
  comb.foldl (fun c index => c.set index (flipState s0 s1 (sigma.getD index 0))) sigma

/-- Embeds the conns result of get_conns_and_mels_Hadamard_multiple: row i is
sigma with the sites of combination i flipped. -/
def hmConns (sigma : List ℤ) (idx : List ℕ) (s0 s1 : ℤ) : List (List ℤ) :=
  (List.range (2 ^ idx.length)).map (fun i => flipRow sigma s0 s1 (combinationOf idx i))

/-- Embeds jnp.prod(jnp.where(conns[i, idx] == local_states[0], 1, -1)): the
product over the target sites of the sign of the (already flipped) row value. -/
def signProd (conn : List ℤ) (idx : List ℕ) (s0 : ℤ) : ℤ :=
  (idx.map (fun q => if conn.getD q 0 = s0 then (1 : ℤ) else -1)).prod

/-- Embeds the mels result of get_conns_and_mels_Hadamard_multiple:
mels[i] = signProd(conns[i]) / sqrt(2 ** len(idx)), real dtype. -/
noncomputable def hmMels (sigma : List ℤ) (idx : List ℕ) (s0 s1 : ℤ) : List ℝ :=
  (List.range (2 ^ idx.length)).map (fun i =>
    ((signProd (flipRow sigma s0 s1 (combinationOf idx i)) idx s0 : ℤ) : ℝ) /
      Real.sqrt (2 ^ idx.length))

/-- Embeds the vmapped get_conns_and_mels_Rx: jax.vmap applies the
per-configuration body independently to every row of the batch. -/
noncomputable def get_conns_and_mels_Rx (x : List (List ℤ)) (idx : ℕ) (angle : ℝ) (s0 s1 : ℤ) :
    List (List (List ℤ) × List ℂ) :=
  x.map (fun sigma => (conns2 sigma idx s0 s1, rxMels angle))

/-- Embeds the vmapped get_conns_and_mels_Ry. -/
noncomputable def get_conns_and_mels_Ry (x : List (List ℤ)) (idx : ℕ) (angle : ℝ) (s0 s1 : ℤ) :
    List (List (List ℤ) × List ℂ) :=
  x.map (fun sigma => (conns2 sigma idx s0 s1, ryMels sigma idx angle s0 s1))

/-- Embeds the vmapped get_conns_and_mels_Hadamard. -/
noncomputable def get_conns_and_mels_Hadamard (x : List (List ℤ)) (idx : ℕ) (s0 s1 : ℤ) :
    List (List (List ℤ) × List ℝ) :=
  x.map (fun sigma => (conns2 sigma idx s0 s1, hadamardMels sigma idx s0 s1))

/-- Embeds the vmapped get_conns_and_mels_Hadamard_multiple. -/
noncomputable def get_conns_and_mels_Hadamard_multiple (x : List (List ℤ)) (idx : List ℕ) (s0 s1 : ℤ) :
    List (List (List ℤ) × List ℝ) :=
  x.map (fun sigma => (hmConns sigma idx s0 s1, hmMels sigma idx s0 s1))

/-!
Gate descriptors and Python equality semantics.  Angles are compared exactly
by the source (Python ==), embedded here over ℚ for exact scalar equality.
The hilbert field stands for the Hilbert-space object; no __eq__ in the source
ever reads it.
-/

/-- Descriptor of an Rx instance: hilbert space, target index, angle. -/
structure RxG where
  hilbert : ℕ
  idx : ℕ
  angle : ℚ
deriving DecidableEq

/-- Descriptor of an Ry instance. -/
structure RyG where
  hilbert : ℕ
  idx : ℕ
  angle : ℚ
deriving DecidableEq

/-- Descriptor of a Hadamard instance: hilbert space and one target index. -/
structure HadG where
  hilbert : ℕ
  idx : ℕ
deriving DecidableEq

/-- Descriptor of a Hadamard_multi instance: hilbert space and a list of
target indices (a Python list in the source). -/
structure HadMultiG where
  hilbert : ℕ
  idx : List ℕ
deriving DecidableEq

/-- Python object against which a gate __eq__ may be called: one of the four
gate classes or a foreign object of any other type. -/
inductive PyObj where
  | rx (g : RxG)
  | ry (g : RyG)
  | hadamard (g : HadG)
  | hadamardMulti (g : HadMultiG)
  | foreign
deriving DecidableEq

/-- Embeds Rx.H: Rx(self.hilbert, self.idx, -self.angle). -/
def RxG.adjH (g : RxG) : RxG :=
  ⟨g.hilbert, g.idx, -g.angle⟩

/-- Embeds Ry.H: Ry(self.hilbert, self.idx, -self.angle * 2). -/
def RyG.adjH (g : RyG) : RyG :=
  ⟨g.hilbert, g.idx, -g.angle * 2⟩

/-- Embeds Rx.__eq__: isinstance(o, Rx) and o.idx == self.idx and
o.angle == self.angle, else False. -/
def RxG.eqPy (g : RxG) (o : PyObj) : Bool :=
  match o with
  | .rx g2 => g2.idx == g.idx && g2.angle == g.angle
  | _ => false

/-- Embeds Ry.__eq__. -/
def RyG.eqPy (g : RyG) (o : PyObj) : Bool :=
  match o with
  | .ry g2 => g2.idx == g.idx && g2.angle == g.angle
  | _ => false

/-- Embeds Hadamard.__eq__: isinstance(o, Hadamard) and o.idx == self.idx. -/
def HadG.eqPy (g : HadG) (o : PyObj) : Bool :=
  match o with
  | .hadamard g2 => g2.idx == g.idx
  | _ => false

/-- Embeds the Python comparison of an int with a list, which is always
False (no error is raised). -/
def pyIntEqList (_ : ℕ) (_ : List ℕ) : Bool :=
  false

/-- Embeds Hadamard_multi.__eq__ exactly as written in the source: the
isinstance test is against Hadamard (not Hadamard_multi), so the only branch
that reaches the idx comparison compares an int (o.idx of a Hadamard) with a
list (self.idx of the Hadamard_multi). -/
def HadMultiG.eqPy (g : HadMultiG) (o : PyObj) : Bool :=
  match o with
  | .hadamard g2 => pyIntEqList g2.idx g.idx
  | _ => false

/-!
Embedding of get_conn_flattened.  Every class fills the caller-supplied
sections array with np.arange(2, mels.size + 2, 2); for a batch of n inputs,
mels.size is n * max_conn_size.
-/

/-- Embeds np.arange(start, stop, step) on natural numbers with step > 0. -/
def npArange (start stop step : ℕ) : List ℕ :=
  (List.range ((stop - start + step - 1) / step)).map (fun n => start + step * n)

/-- Embeds sections[:] = np.arange(2, mels.size + 2, 2), the assignment all
four get_conn_flattened methods perform, as a function of mels.size. -/
def sectionsFilled (melsSize : ℕ) : List ℕ :=
  npArange 2 (melsSize + 2) 2

/-- Cumulative per-input offsets the spec requires in sections: entry n is
(n + 1) * max_conn_size for a batch of batchSize inputs. -/
def sectionsClaimed (batchSize maxConnSize : ℕ) : List ℕ :=
  (List.range batchSize).map (fun n => (n + 1) * maxConnSize)

/-!
Embedding of the package import in netket_fidelity/operator/__init__.py.
-/

/-- Top-level names defined by the module singlequbit_gates.py. -/
def singlequbitGatesDefs : List String :=
  ["Rx", "get_conns_and_mels_Rx", "Ry", "get_conns_and_mels_Ry",
   "Hadamard", "get_conns_and_mels_Hadamard",
   "Hadamard_multi", "get_conns_and_mels_Hadamard_multiple"]

/-- Names the from-import statement in operator/__init__.py asks of
singlequbit_gates. -/
def operatorInitImports : List String :=
  ["Rx", "Ry", "Hadamard", "Measure_0", "Measure_1"]

/-- Embeds the Python import semantics of the from-import line: the import
succeeds only when every requested name is defined in the module, and raises
ImportError otherwise, in which case the package body never finishes. -/
def importOperatorPackage : Except String Unit :=
  if operatorInitImports.all (fun n => singlequbitGatesDefs.contains n) then
    Except.ok ()
  else
    Except.error "ImportError"

/-!
Helper lemmas about list reads and writes.
-/

theorem getD_set_self {α : Type} (l : List α) (i : ℕ) (v d : α) (h : i < l.length) :
    (l.set i v).getD i d = v := by
  simp [List.getD_eq_getElem?_getD, List.getElem?_set, h]

theorem getD_set_ne {α : Type} (l : List α) (i p : ℕ) (v d : α) (h : i ≠ p) :
    (l.set i v).getD p d = l.getD p d := by
  simp [List.getD_eq_getElem?_getD, List.getElem?_set, h]

theorem getD_map_lt {α β : Type} (l : List α) (f : α → β) (n : ℕ) (h : n < l.length)
    (d : β) (d0 : α) : (l.map f).getD n d = f (l.getD n d0) := by
  simp [List.getD_eq_getElem?_getD, List.getElem?_map, List.getElem?_eq_getElem, h]

theorem map_eq_range_map {α β : Type} (l : List α) (d : α) (f : α → β) :
    l.map f = (List.range l.length).map (fun j => f (l.getD j d)) := by
  apply List.ext_getElem (by simp)
  intro n h1 h2
  have hn : n < l.length := by simpa using h1
  simp [List.getElem_map, List.getElem_range, List.getD_eq_getElem?_getD,
    List.getElem?_eq_getElem, hn]

theorem conns2_eq (sigma : List ℤ) (idx : ℕ) (s0 s1 : ℤ) :
    conns2 sigma idx s0 s1 = [sigma, sigma.set idx (flipState s0 s1 (sigma.getD idx 0))] :=
  rfl

theorem rxMels_eq (angle : ℝ) :
    rxMels angle = [((Real.cos (angle / 2) : ℝ) : ℂ),
      -Complex.I * ((Real.sin (angle / 2) : ℝ) : ℂ)] :=
  rfl

theorem ryMels_eq (sigma : List ℤ) (idx : ℕ) (angle : ℝ) (s0 s1 : ℤ) :
    ryMels sigma idx angle s0 s1 = [((Real.cos (angle / 2) : ℝ) : ℂ),
      (((if sigma.getD idx 0 = s0 then (1 : ℝ) else -1) : ℝ) : ℂ) *
        ((Real.sin (angle / 2) : ℝ) : ℂ)] :=
  rfl

theorem hadamardMels_eq (sigma : List ℤ) (idx : ℕ) (s0 s1 : ℤ) :
    hadamardMels sigma idx s0 s1 =
      [(if sigma.getD idx 0 = s0 then (1 : ℝ) else -1) / Real.sqrt 2, 1 / Real.sqrt 2] :=
  rfl

/-- C9: importing the package netket_fidelity.operator always raises an
ImportError, because its __init__ imports Measure_0 and Measure_1 from
singlequbit_gates, which defines neither; Hadamard_multi is not listed in
the requested names at all, so no gate class is reachable through the
package interface. -/
theorem operator_package_import_fails :
    importOperatorPackage = Except.error "ImportError" ∧
    singlequbitGatesDefs.contains "Measure_0" = false ∧
    singlequbitGatesDefs.contains "Measure_1" = false ∧
    singlequbitGatesDefs.contains "Hadamard_multi" = true ∧
    operatorInitImports.contains "Hadamard_multi" = false := by
  refine ⟨rfl, rfl, rfl, rfl, rfl⟩

/-- C10: the flip used by every connect operation maps a target-site value to
state_1 exactly when it equals state_0; any other value, including values
outside the two-element local-state set, is mapped to state_0, so the flip is
an involution on values in the local-state set and only on those. -/
theorem flipState_semantics (s0 s1 v : ℤ) (hne : s0 ≠ s1) :
    (flipState s0 s1 v = s1 ↔ v = s0) ∧
    (v ≠ s0 → flipState s0 s1 v = s0) ∧
    ((v = s0 ∨ v = s1) → flipState s0 s1 (flipState s0 s1 v) = v) ∧
    ((v ≠ s0 ∧ v ≠ s1) → flipState s0 s1 (flipState s0 s1 v) ≠ v) ∧
    (∀ sigma : List ℤ, ∀ idx : ℕ, idx < sigma.length →
      ((conns2 sigma idx s0 s1).getD 1 []).getD idx 0 = flipState s0 s1 (sigma.getD idx 0)) := by
  refine ⟨?_, ?_, ?_, ?_, ?_⟩
  · constructor
    · intro h
      by_contra hv
      simp [flipState, hv] at h
      exact hne h
    · intro h
      simp [flipState, h]
  · intro h
    simp [flipState, h]
  · rintro (rfl | rfl)
    · simp [flipState]
    · have hv : v ≠ s0 := fun hc => hne hc.symm
      simp [flipState, hv]
  · rintro ⟨h0, h1⟩
    simp [flipState, h0]
    intro hc
    exact h1 hc.symm
  · intro sigma idx hidx
    rw [conns2_eq]
    simpa using getD_set_self sigma idx _ 0 hidx

/-- C4: the adjoint of Ry stores the negated and doubled angle, so
Ry(hi, idx, theta).H compares equal (via the __eq__ of the source) to
Ry(hi, idx, -2 * theta), and not to Ry(hi, idx, -theta) unless theta is 0. -/
theorem ry_adjoint_relation (hi idx : ℕ) (θ : ℚ) :
    (RyG.adjH ⟨hi, idx, θ⟩).eqPy (PyObj.ry ⟨hi, idx, -2 * θ⟩) = true ∧
    (θ ≠ 0 → (RyG.adjH ⟨hi, idx, θ⟩).eqPy (PyObj.ry ⟨hi, idx, -θ⟩) = false) := by
  constructor
  · simp [RyG.adjH, RyG.eqPy]
    ring
  · intro h
    simp [RyG.adjH, RyG.eqPy]
    intro hc
    exact absurd (by linarith) h

/-- C4 witness: the adjoint relation evaluated at hi = 0, idx = 3,
theta = 1/2. -/
theorem ry_adjoint_relation_witness :
    (RyG.adjH ⟨0, 3, 1/2⟩).eqPy (PyObj.ry ⟨0, 3, -2 * (1/2)⟩) = true ∧
    ((1:ℚ)/2 ≠ 0 → (RyG.adjH ⟨0, 3, 1/2⟩).eqPy (PyObj.ry ⟨0, 3, -(1/2)⟩) = false) :=
  ry_adjoint_relation 0 3 (1/2)

/-- C7 (code bug record): same-variant same-parameter instances of Rx, Ry and
Hadamard compare equal and every variant compares not-equal to a foreign
object without failing, but a Hadamard_multi never equals another
Hadamard_multi with the same indices, because its __eq__ tests
isinstance(o, Hadamard) and then compares an int index with a list. -/
theorem equality_check_results :
    (RxG.eqPy ⟨0, 1, 3⟩ (PyObj.rx ⟨0, 1, 3⟩) = true) ∧
    (RyG.eqPy ⟨0, 1, 3⟩ (PyObj.ry ⟨0, 1, 3⟩) = true) ∧
    (HadG.eqPy ⟨0, 1⟩ (PyObj.hadamard ⟨0, 1⟩) = true) ∧
    (RxG.eqPy ⟨0, 1, 3⟩ (PyObj.ry ⟨0, 1, 3⟩) = false) ∧
    (RxG.eqPy ⟨0, 1, 3⟩ PyObj.foreign = false) ∧
    (RyG.eqPy ⟨0, 1, 3⟩ PyObj.foreign = false) ∧
    (HadG.eqPy ⟨0, 1⟩ PyObj.foreign = false) ∧
    (HadMultiG.eqPy ⟨0, [0, 1]⟩ PyObj.foreign = false) ∧
    (HadMultiG.eqPy ⟨0, [0, 1]⟩ (PyObj.hadamardMulti ⟨0, [0, 1]⟩) = false) := by
  decide

/-- C6 (code bug record): every get_conn_flattened fills sections with
np.arange(2, mels.size + 2, 2).  For the fixed-arity gates (max_conn_size 2)
this equals the claimed cumulative offsets (n + 1) * 2, but for Hadamard_multi
on two qubits (max_conn_size 4) a batch of one configuration yields the filled
values [2, 4] where the claim requires [4]. -/
theorem sections_hadamard_multi_divergence :
    (∀ batchSize, sectionsFilled (batchSize * 2) = sectionsClaimed batchSize 2) ∧
    sectionsFilled (1 * 2 ^ 2) = [2, 4] ∧
    sectionsClaimed 1 (2 ^ 2) = [4] ∧
    sectionsFilled (1 * 2 ^ 2) ≠ sectionsClaimed 1 (2 ^ 2) := by
  refine ⟨?_, by decide, by decide, by decide⟩
  intro batchSize
  have hcount : (batchSize * 2 + 2 - 2 + 2 - 1) / 2 = batchSize := by omega
  simp only [sectionsFilled, sectionsClaimed, npArange, hcount]
  apply List.map_congr_left
  intro n _
  ring

/-- C10 witness: the flip semantics evaluated at state_0 = 1, state_1 = -1 and
the out-of-set value 5. -/
theorem flipState_semantics_witness :
    ((1 : ℤ) ≠ -1) ∧
    ((flipState 1 (-1) 5 = -1 ↔ (5 : ℤ) = 1) ∧
     ((5 : ℤ) ≠ 1 → flipState 1 (-1) 5 = 1) ∧
     (((5 : ℤ) = 1 ∨ (5 : ℤ) = -1) → flipState 1 (-1) (flipState 1 (-1) 5) = 5) ∧
     (((5 : ℤ) ≠ 1 ∧ (5 : ℤ) ≠ -1) → flipState 1 (-1) (flipState 1 (-1) 5) ≠ 5) ∧
     (∀ sigma : List ℤ, ∀ idx : ℕ, idx < sigma.length →
       ((conns2 sigma idx 1 (-1)).getD 1 []).getD idx 0 =
         flipState 1 (-1) (sigma.getD idx 0))) :=
  ⟨by decide, flipState_semantics 1 (-1) 5 (by decide)⟩

/-- C2: the Rx connect operation returns two connections and two amplitudes,
conns[0] is sigma unchanged, conns[1] is sigma with the value at site idx
flipped between state_0 and state_1, mels[0] = cos(angle/2) and
mels[1] = -i * sin(angle/2). -/
theorem rx_connect_correct (sigma : List ℤ) (idx : ℕ) (angle : ℝ) (s0 s1 : ℤ)
    (hidx : idx < sigma.length) :
    (conns2 sigma idx s0 s1).length = 2 ∧
    (rxMels angle).length = 2 ∧
    (conns2 sigma idx s0 s1).getD 0 [] = sigma ∧
    ((conns2 sigma idx s0 s1).getD 1 []).length = sigma.length ∧
    (∀ p, p ≠ idx → ((conns2 sigma idx s0 s1).getD 1 []).getD p 0 = sigma.getD p 0) ∧
    (sigma.getD idx 0 = s0 → ((conns2 sigma idx s0 s1).getD 1 []).getD idx 0 = s1) ∧
    (sigma.getD idx 0 = s1 → ((conns2 sigma idx s0 s1).getD 1 []).getD idx 0 = s0) ∧
    (rxMels angle).getD 0 0 = ((Real.cos (angle / 2) : ℝ) : ℂ) ∧
    (rxMels angle).getD 1 0 = -Complex.I * ((Real.sin (angle / 2) : ℝ) : ℂ) := by
  refine ⟨rfl, rfl, rfl, ?_, ?_, ?_, ?_, rfl, rfl⟩
  · rw [conns2_eq]
    simp [List.length_set]
  · intro p hp
    rw [conns2_eq]
    show (sigma.set idx (flipState s0 s1 (sigma.getD idx 0))).getD p 0 = sigma.getD p 0
    exact getD_set_ne sigma idx p _ 0 (fun h => hp h.symm)
  · intro h
    rw [conns2_eq]
    show (sigma.set idx (flipState s0 s1 (sigma.getD idx 0))).getD idx 0 = s1
    rw [getD_set_self _ _ _ _ hidx, flipState, if_pos h]
  · intro h
    rw [conns2_eq]
    show (sigma.set idx (flipState s0 s1 (sigma.getD idx 0))).getD idx 0 = s0
    rw [getD_set_self _ _ _ _ hidx]
    by_cases hc : sigma.getD idx 0 = s0
    · rw [flipState, if_pos hc]
      linarith [hc, h]
    · rw [flipState, if_neg hc]

/-- C2 witness: the Rx connect contract evaluated at sigma = [4, 7], idx = 1,
angle = 1, state_0 = 7, state_1 = 9. -/
theorem rx_connect_correct_witness :
    (1 < ([4, 7] : List ℤ).length) ∧
    ((conns2 [4, 7] 1 7 9).length = 2 ∧
     (rxMels 1).length = 2 ∧
     (conns2 [4, 7] 1 7 9).getD 0 [] = [4, 7] ∧
     ((conns2 [4, 7] 1 7 9).getD 1 []).length = ([4, 7] : List ℤ).length ∧
     (∀ p, p ≠ 1 → ((conns2 [4, 7] 1 7 9).getD 1 []).getD p 0 =
       ([4, 7] : List ℤ).getD p 0) ∧
     (([4, 7] : List ℤ).getD 1 0 = 7 → ((conns2 [4, 7] 1 7 9).getD 1 []).getD 1 0 = 9) ∧
     (([4, 7] : List ℤ).getD 1 0 = 9 → ((conns2 [4, 7] 1 7 9).getD 1 []).getD 1 0 = 7) ∧
     (rxMels 1).getD 0 0 = ((Real.cos (1 / 2) : ℝ) : ℂ) ∧
     (rxMels 1).getD 1 0 = -Complex.I * ((Real.sin (1 / 2) : ℝ) : ℂ)) :=
  ⟨by decide, rx_connect_correct [4, 7] 1 1 7 9 (by decide)⟩

/-- C3: the off-diagonal Ry amplitude is sign * sin(angle/2), with the sign
+1 exactly when the original, unflipped configuration holds state_0 at idx,
and -1 otherwise. -/
theorem ry_offdiagonal_sign (sigma : List ℤ) (idx : ℕ) (angle : ℝ) (s0 s1 : ℤ) :
    (ryMels sigma idx angle s0 s1).getD 1 0 =
      (((if sigma.getD idx 0 = s0 then (1 : ℝ) else -1) : ℝ) : ℂ) *
        ((Real.sin (angle / 2) : ℝ) : ℂ) := by
  rw [ryMels_eq]
  rfl

theorem prod_pm_one : ∀ l : List ℤ, (∀ x ∈ l, x = 1 ∨ x = -1) → l.prod = 1 ∨ l.prod = -1 := by
  intro l
  induction l with
  | nil => intro _; left; rfl
  | cons a t ih =>
    intro h
    have ha := h a (by simp)
    have ht := ih (fun x hx => h x (by simp [hx]))
    rcases ha with rfl | rfl <;> rcases ht with hp | hp <;> rw [List.prod_cons, hp] <;> norm_num

theorem signProd_pm (conn : List ℤ) (idxs : List ℕ) (s0 : ℤ) :
    signProd conn idxs s0 = 1 ∨ signProd conn idxs s0 = -1 := by
  apply prod_pm_one
  intro x hx
  simp only [List.mem_map] at hx
  obtain ⟨q, _, rfl⟩ := hx
  split_ifs <;> simp

theorem signProd_sq (conn : List ℤ) (idxs : List ℕ) (s0 : ℤ) :
    signProd conn idxs s0 ^ 2 = 1 := by
  rcases signProd_pm conn idxs s0 with h | h <;> rw [h] <;> norm_num

theorem hmMels_term_sq (sigma : List ℤ) (idxs : List ℕ) (s0 s1 : ℤ) (i : ℕ) :
    |((signProd (flipRow sigma s0 s1 (combinationOf idxs i)) idxs s0 : ℤ) : ℝ) /
        Real.sqrt (2 ^ idxs.length)| ^ 2 = ((2 : ℝ) ^ idxs.length)⁻¹ := by
  rw [sq_abs, div_pow, Real.sq_sqrt (by positivity)]
  have h1 : (((signProd (flipRow sigma s0 s1 (combinationOf idxs i)) idxs s0 : ℤ) : ℝ)) ^ 2 = 1 := by
    exact_mod_cast signProd_sq (flipRow sigma s0 s1 (combinationOf idxs i)) idxs s0
  rw [h1]
  simp

/-- C5: every gate variant returns exactly max_conn_size connection/amplitude
pairs (2 for Rx, Ry, Hadamard; 2^k for Hadamard_multi on k target qubits), and
the squared moduli of the amplitudes sum to 1. -/
theorem connect_counts_and_unitarity (sigma : List ℤ) (idx : ℕ) (idxs : List ℕ)
    (angle : ℝ) (s0 s1 : ℤ) :
    (conns2 sigma idx s0 s1).length = 2 ∧
    (rxMels angle).length = 2 ∧
    ((rxMels angle).map (fun m => Complex.abs m ^ 2)).sum = 1 ∧
    (ryMels sigma idx angle s0 s1).length = 2 ∧
    ((ryMels sigma idx angle s0 s1).map (fun m => Complex.abs m ^ 2)).sum = 1 ∧
    (hadamardMels sigma idx s0 s1).length = 2 ∧
    ((hadamardMels sigma idx s0 s1).map (fun m => |m| ^ 2)).sum = 1 ∧
    (hmConns sigma idxs s0 s1).length = 2 ^ idxs.length ∧
    (hmMels sigma idxs s0 s1).length = 2 ^ idxs.length ∧
    ((hmMels sigma idxs s0 s1).map (fun m => |m| ^ 2)).sum = 1 := by
  refine ⟨rfl, rfl, ?_, rfl, ?_, rfl, ?_, ?_, ?_, ?_⟩
  · rw [rxMels_eq]
    simp only [List.map_cons, List.map_nil, List.sum_cons, List.sum_nil]
    simp only [map_mul, Complex.abs_ofReal, map_neg_eq_map, Complex.abs_I, mul_pow, sq_abs,
      add_zero, one_pow, one_mul]
    exact Real.cos_sq_add_sin_sq (angle / 2)
  · rw [ryMels_eq]
    by_cases h : sigma.getD idx 0 = s0 <;>
      simp only [h, if_true, if_false, List.map_cons, List.map_nil, List.sum_cons,
        List.sum_nil] <;>
      simp only [map_mul, Complex.abs_ofReal, mul_pow, sq_abs, add_zero] <;>
      norm_num
  · rw [hadamardMels_eq]
    have h2 : Real.sqrt 2 ^ 2 = 2 := Real.sq_sqrt (by norm_num)
    by_cases h : sigma.getD idx 0 = s0 <;>
      simp only [h, if_true, if_false, List.map_cons, List.map_nil, List.sum_cons,
        List.sum_nil, add_zero, sq_abs, div_pow, h2] <;>
      norm_num
  · simp [hmConns]
  · simp [hmMels]
  · unfold hmMels
    rw [List.map_map]
    have hconst : ∀ i ∈ List.range (2 ^ idxs.length),
        ((fun m => |m| ^ 2) ∘ (fun i =>
          ((signProd (flipRow sigma s0 s1 (combinationOf idxs i)) idxs s0 : ℤ) : ℝ) /
            Real.sqrt (2 ^ idxs.length))) i = ((2 : ℝ) ^ idxs.length)⁻¹ := by
      intro i _
      exact hmMels_term_sq sigma idxs s0 s1 i
    rw [List.map_congr_left hconst, List.map_const']
    simp only [List.length_range, List.sum_replicate, nsmul_eq_mul]
    push_cast
    exact mul_inv_cancel₀ (by positivity)

/-- C8: the batched connect of every variant is independent across the batch
dimension: entry n of the batched result equals the per-configuration result
on batch entry n. -/
theorem batched_connect_independent (x : List (List ℤ)) (idx : ℕ) (idxs : List ℕ)
    (angle : ℝ) (s0 s1 : ℤ) (n : ℕ) (hn : n < x.length) :
    (get_conns_and_mels_Rx x idx angle s0 s1).getD n ([], []) =
      (conns2 (x.getD n []) idx s0 s1, rxMels angle) ∧
    (get_conns_and_mels_Ry x idx angle s0 s1).getD n ([], []) =
      (conns2 (x.getD n []) idx s0 s1, ryMels (x.getD n []) idx angle s0 s1) ∧
    (get_conns_and_mels_Hadamard x idx s0 s1).getD n ([], []) =
      (conns2 (x.getD n []) idx s0 s1, hadamardMels (x.getD n []) idx s0 s1) ∧
    (get_conns_and_mels_Hadamard_multiple x idxs s0 s1).getD n ([], []) =
      (hmConns (x.getD n []) idxs s0 s1, hmMels (x.getD n []) idxs s0 s1) :=
  ⟨getD_map_lt x _ n hn ([], []) [], getD_map_lt x _ n hn ([], []) [],
   getD_map_lt x _ n hn ([], []) [], getD_map_lt x _ n hn ([], []) []⟩

/-- C8 witness: batch independence evaluated at the two-configuration batch
[[1], [2]] and batch position 1. -/
theorem batched_connect_independent_witness :
    (1 < ([[1], [2]] : List (List ℤ)).length) ∧
    ((get_conns_and_mels_Rx [[1], [2]] 0 1 1 2).getD 1 ([], []) =
      (conns2 (([[1], [2]] : List (List ℤ)).getD 1 []) 0 1 2, rxMels 1) ∧
     (get_conns_and_mels_Ry [[1], [2]] 0 1 1 2).getD 1 ([], []) =
      (conns2 (([[1], [2]] : List (List ℤ)).getD 1 []) 0 1 2,
        ryMels (([[1], [2]] : List (List ℤ)).getD 1 []) 0 1 1 2) ∧
     (get_conns_and_mels_Hadamard [[1], [2]] 0 1 2).getD 1 ([], []) =
      (conns2 (([[1], [2]] : List (List ℤ)).getD 1 []) 0 1 2,
        hadamardMels (([[1], [2]] : List (List ℤ)).getD 1 []) 0 1 2) ∧
     (get_conns_and_mels_Hadamard_multiple [[1], [2]] [0] 1 2).getD 1 ([], []) =
      (hmConns (([[1], [2]] : List (List ℤ)).getD 1 []) [0] 1 2,
        hmMels (([[1], [2]] : List (List ℤ)).getD 1 []) [0] 1 2)) :=
  ⟨by decide, batched_connect_independent [[1], [2]] 0 [0] 1 1 2 1 (by decide)⟩

theorem foldl_set_length (f : ℕ → ℤ) : ∀ (comb : List ℕ) (c : List ℤ),
    (comb.foldl (fun c index => c.set index (f index)) c).length = c.length := by
  intro comb
  induction comb with
  | nil => intro c; rfl
  | cons a t ih =>
    intro c
    rw [List.foldl_cons, ih, List.length_set]

theorem foldl_set_getD (f : ℕ → ℤ) : ∀ (comb : List ℕ) (c : List ℤ) (p : ℕ), p < c.length →
    (comb.foldl (fun c index => c.set index (f index)) c).getD p 0 =
      if p ∈ comb then f p else c.getD p 0 := by
  intro comb
  induction comb with
  | nil => intro c p _; simp
  | cons a t ih =>
    intro c p hp
    rw [List.foldl_cons, ih _ p (by simpa [List.length_set] using hp)]
    by_cases hpt : p ∈ t
    · simp [hpt]
    · by_cases hpa : p = a
      · subst hpa
        simp [hpt, List.getD_eq_getElem?_getD, List.getElem?_set, hp]
      · have hap : a ≠ p := fun h => hpa h.symm
        simp [hpt, hpa, hap, List.getD_eq_getElem?_getD, List.getElem?_set]

theorem range_getD (n i : ℕ) (h : i < n) : (List.range n).getD i 0 = i := by
  rw [List.getD_eq_getElem _ _ (by simpa using h)]
  simp

theorem mem_combinationOf (idx : List ℕ) (i p : ℕ) :
    p ∈ combinationOf idx i ↔ ∃ j, j < idx.length ∧ i.testBit j ∧ idx.getD j 0 = p := by
  simp only [combinationOf, List.mem_map, List.mem_filter, List.mem_range]
  constructor
  · rintro ⟨j, ⟨hj, hb⟩, he⟩
    exact ⟨j, hj, by simpa using hb, he⟩
  · rintro ⟨j, hj, hb, he⟩
    exact ⟨j, ⟨hj, by simpa using hb⟩, he⟩

theorem nodup_getD_inj (l : List ℕ) (hnd : l.Nodup) {i j : ℕ} (hi : i < l.length)
    (hj : j < l.length) (h : l.getD i 0 = l.getD j 0) : i = j := by
  rw [List.getD_eq_getElem _ _ hi, List.getD_eq_getElem _ _ hj] at h
  exact (List.Nodup.getElem_inj_iff hnd).mp h

theorem hmConns_getD (sigma : List ℤ) (idx : List ℕ) (s0 s1 : ℤ) (i : ℕ)
    (hi : i < 2 ^ idx.length) :
    (hmConns sigma idx s0 s1).getD i [] = flipRow sigma s0 s1 (combinationOf idx i) := by
  unfold hmConns
  rw [getD_map_lt _ _ i (by simpa using hi) [] 0, range_getD _ _ hi]

theorem hmMels_getD (sigma : List ℤ) (idx : List ℕ) (s0 s1 : ℤ) (i : ℕ)
    (hi : i < 2 ^ idx.length) :
    (hmMels sigma idx s0 s1).getD i 0 =
      ((signProd (flipRow sigma s0 s1 (combinationOf idx i)) idx s0 : ℤ) : ℝ) /
        Real.sqrt (2 ^ idx.length) := by
  unfold hmMels
  rw [getD_map_lt _ _ i (by simpa using hi) 0 0, range_getD _ _ hi]

theorem flipRow_getD_closed (sigma : List ℤ) (idx : List ℕ) (s0 s1 : ℤ) (i j : ℕ)
    (hnd : idx.Nodup) (hvalid : ∀ q ∈ idx, q < sigma.length) (hj : j < idx.length) :
    (flipRow sigma s0 s1 (combinationOf idx i)).getD (idx.getD j 0) 0 =
      if i.testBit j then flipState s0 s1 (sigma.getD (idx.getD j 0) 0)
      else sigma.getD (idx.getD j 0) 0 := by
  have hmem : idx.getD j 0 ∈ idx := by
    rw [List.getD_eq_getElem _ _ hj]
    exact List.getElem_mem hj
  have hq : idx.getD j 0 < sigma.length := hvalid _ hmem
  unfold flipRow
  rw [foldl_set_getD _ _ _ _ hq]
  by_cases hb : i.testBit j
  · rw [if_pos ((mem_combinationOf _ _ _).mpr ⟨j, hj, hb, rfl⟩), if_pos hb]
  · rw [if_neg, if_neg hb]
    intro hmem2
    obtain ⟨j2, hj2, hb2, he2⟩ := (mem_combinationOf _ _ _).mp hmem2
    have hjj : j2 = j := nodup_getD_inj idx hnd hj2 hj he2
    exact hb (hjj ▸ hb2)

theorem signProd_closed (sigma : List ℤ) (idx : List ℕ) (s0 s1 : ℤ) (i : ℕ)
    (hnd : idx.Nodup) (hvalid : ∀ q ∈ idx, q < sigma.length) :
    signProd (flipRow sigma s0 s1 (combinationOf idx i)) idx s0 =
      ((List.range idx.length).map (fun j =>
        if (if i.testBit j then flipState s0 s1 (sigma.getD (idx.getD j 0) 0)
            else sigma.getD (idx.getD j 0) 0) = s0 then (1 : ℤ) else -1)).prod := by
  unfold signProd
  rw [map_eq_range_map idx 0
    (fun q => if (flipRow sigma s0 s1 (combinationOf idx i)).getD q 0 = s0 then (1 : ℤ) else -1)]
  apply congrArg List.prod
  apply List.map_congr_left
  intro j hj
  simp only [List.mem_range] at hj
  rw [flipRow_getD_closed sigma idx s0 s1 i j hnd hvalid hj]

/-- C1: the multi-qubit Hadamard connect operation returns 2^k connections for
k distinct target qubits; connection i is sigma with exactly those sites
idx[j] flipped for which bit j of i is set, and amplitude i is the product
over the target sites of +1 when the already-flipped configuration holds
state_0 there and -1 otherwise, divided by sqrt(2^k). -/
theorem hadamard_multi_connect_correct (sigma : List ℤ) (idx : List ℕ) (s0 s1 : ℤ)
    (hnd : idx.Nodup) (hvalid : ∀ q ∈ idx, q < sigma.length) :
    (hmConns sigma idx s0 s1).length = 2 ^ idx.length ∧
    (hmMels sigma idx s0 s1).length = 2 ^ idx.length ∧
    (∀ i, i < 2 ^ idx.length →
      ((hmConns sigma idx s0 s1).getD i []).length = sigma.length ∧
      (∀ p, p < sigma.length →
        ((∃ j, j < idx.length ∧ i.testBit j ∧ idx.getD j 0 = p) →
          ((hmConns sigma idx s0 s1).getD i []).getD p 0 =
            flipState s0 s1 (sigma.getD p 0)) ∧
        ((∀ j, j < idx.length → i.testBit j → idx.getD j 0 ≠ p) →
          ((hmConns sigma idx s0 s1).getD i []).getD p 0 = sigma.getD p 0)) ∧
      (hmMels sigma idx s0 s1).getD i 0 =
        (((List.range idx.length).map (fun j =>
            if (if i.testBit j then flipState s0 s1 (sigma.getD (idx.getD j 0) 0)
                else sigma.getD (idx.getD j 0) 0) = s0 then (1 : ℤ) else -1)).prod : ℝ) /
          Real.sqrt (2 ^ idx.length)) := by
  refine ⟨by simp [hmConns], by simp [hmMels], ?_⟩
  intro i hi
  refine ⟨?_, ?_, ?_⟩
  · rw [hmConns_getD sigma idx s0 s1 i hi]
    exact foldl_set_length _ _ sigma
  · intro p hp
    rw [hmConns_getD sigma idx s0 s1 i hi]
    unfold flipRow
    rw [foldl_set_getD _ _ _ _ hp]
    constructor
    · intro hex
      rw [if_pos ((mem_combinationOf _ _ _).mpr hex)]
    · intro hall
      rw [if_neg]
      intro hmem
      obtain ⟨j, hj, hb, he⟩ := (mem_combinationOf _ _ _).mp hmem
      exact hall j hj hb he
  · rw [hmMels_getD sigma idx s0 s1 i hi,
      signProd_closed sigma idx s0 s1 i hnd hvalid]

/-- C1 witness: the multi-qubit Hadamard contract evaluated at
sigma = [1, -1], idx = [0, 1], state_0 = 1, state_1 = -1. -/
theorem hadamard_multi_connect_correct_witness :
    ([0, 1] : List ℕ).Nodup ∧
    (∀ q ∈ ([0, 1] : List ℕ), q < ([1, -1] : List ℤ).length) ∧
    ((hmConns [1, -1] [0, 1] 1 (-1)).length = 2 ^ ([0, 1] : List ℕ).length ∧
     (hmMels [1, -1] [0, 1] 1 (-1)).length = 2 ^ ([0, 1] : List ℕ).length ∧
     (∀ i, i < 2 ^ ([0, 1] : List ℕ).length →
       ((hmConns [1, -1] [0, 1] 1 (-1)).getD i []).length = ([1, -1] : List ℤ).length ∧
       (∀ p, p < ([1, -1] : List ℤ).length →
         ((∃ j, j < ([0, 1] : List ℕ).length ∧ i.testBit j ∧
             ([0, 1] : List ℕ).getD j 0 = p) →
           ((hmConns [1, -1] [0, 1] 1 (-1)).getD i []).getD p 0 =
             flipState 1 (-1) (([1, -1] : List ℤ).getD p 0)) ∧
         ((∀ j, j < ([0, 1] : List ℕ).length → i.testBit j →
             ([0, 1] : List ℕ).getD j 0 ≠ p) →
           ((hmConns [1, -1] [0, 1] 1 (-1)).getD i []).getD p 0 =
             ([1, -1] : List ℤ).getD p 0)) ∧
       (hmMels [1, -1] [0, 1] 1 (-1)).getD i 0 =
         (((List.range ([0, 1] : List ℕ).length).map (fun j =>
             if (if i.testBit j then
                   flipState 1 (-1) (([1, -1] : List ℤ).getD (([0, 1] : List ℕ).getD j 0) 0)
                 else ([1, -1] : List ℤ).getD (([0, 1] : List ℕ).getD j 0) 0) = 1 then
               (1 : ℤ) else -1)).prod : ℝ) /
           Real.sqrt (2 ^ ([0, 1] : List ℕ).length))) :=
  ⟨by decide, by decide,
   hadamard_multi_connect_correct [1, -1] [0, 1] 1 (-1) (by decide) (by decide)⟩
